import Mathlib

/-!
# Verification of the precin-plus analytic core

Shallow embedding of the three pure analytic functions of the repository
(`calculateIQRAverage`, the dense ranking in `RankingDrawer.rankedPrices`,
and `findMinPriceInfo` from `src/App.tsx`), with theorems settling the
specification claims about them.

Finite JavaScript numbers are idealised as rationals (`ℚ`); the non-finite
values `Infinity`, `-Infinity` and `NaN`, which the source code tests for
and propagates, are modelled explicitly by the inductive type `JNum`, and
possibly non-numeric inputs (null, undefined, strings, ...) by `JVal`.
-/

namespace PrecinPlus

/-- A JavaScript number: a finite value (idealised as a rational), one of the
two infinities, or `NaN`. -/
inductive JNum where
  | fin : ℚ → JNum
  | inf : JNum
  | negInf : JNum
  | nan : JNum
deriving DecidableEq

/-- A JavaScript value as it may appear in a price list: a number, or a
non-numeric value (null, undefined, a string, ...). -/
inductive JVal where
  | num : JNum → JVal
  | nonNum : JVal
deriving DecidableEq

/-- `typeof p === 'number' && isFinite(p)`: the finite numeric content of a
value, if any. -/
def JVal.toFin : JVal → Option ℚ
  | .num (.fin q) => some q
  | _ => none

/-- The JavaScript `<` comparison on numbers: any comparison with `NaN` is
false; `-Infinity` is below and `Infinity` above every other number. -/
def jlt : JNum → JNum → Bool
  | .nan, _ => false
  | _, .nan => false
  | .negInf, .negInf => false
  | .negInf, _ => true
  | _, .negInf => false
  | .inf, _ => false
  | _, .inf => true
  | .fin a, .fin b => a < b

/-- The JavaScript `<=` comparison on numbers: any comparison with `NaN` is
false; otherwise the total order with `-Infinity` at the bottom and
`Infinity` at the top. -/
def jle : JNum → JNum → Bool
  | .nan, _ => false
  | _, .nan => false
  | .negInf, _ => true
  | _, .negInf => false
  | _, .inf => true
  | .inf, _ => false
  | .fin a, .fin b => a ≤ b

/-- The JavaScript `===` comparison on numbers: `NaN` equals nothing,
including itself; otherwise structural equality. -/
def jeq : JNum → JNum → Bool
  | .nan, _ => false
  | _, .nan => false
  | a, b => a = b

/-- One step of `Math.min`: `NaN` propagates, otherwise the smaller value. -/
def jmin (a b : JNum) : JNum :=
  match a, b with
  | .nan, _ => .nan
  | _, .nan => .nan
  | a, b => if jlt b a then b else a

/-- `Math.min(...values)`: fold of `jmin` starting from `Infinity`
(`Math.min()` of no arguments is `Infinity`). -/
def jsMin (values : List JNum) : JNum :=
  values.foldl jmin .inf

/-- `parseFloat(x.toFixed(3))`: rounding to 3 decimal places, ties toward
the larger candidate, as the ECMAScript `toFixed` specification prescribes. -/
def round3 (x : ℚ) : ℚ :=
  (⌊x * 1000 + 1 / 2⌋ : ℚ) / 1000

/-! ## The Outlier-Trimmed Averager (`calculateIQRAverage`, src/App.tsx 39-73) -/

/-- `priceList.filter(p => typeof p === 'number' && isFinite(p))`, keeping
the numeric content of the surviving entries. -/
def validOf (priceList : List JVal) : List ℚ :=
  priceList.filterMap JVal.toFin

/-- `[...validPrices].sort((a, b) => a - b)`: ascending numeric sort.
(Insertion sort; only the sortedness and multiset content matter.) -/
def sortAsc (l : List ℚ) : List ℚ :=
  l.insertionSort (· ≤ ·)

/-- `sortedPrices[Math.floor(sortedPrices.length / 4)]`. -/
def q1Of (s : List ℚ) : ℚ :=
  s.getD (s.length / 4) 0

/-- `sortedPrices[Math.floor(sortedPrices.length * (3 / 4))]`. -/
def q3Of (s : List ℚ) : ℚ :=
  s.getD (s.length * 3 / 4) 0

/-- `sortedPrices.filter(price => price >= lowerBound && price <= upperBound)`
with `lowerBound = q1 - 1.5 * iqr` and `upperBound = q3 + 1.5 * iqr`. -/
def keptOf (s : List ℚ) : List ℚ :=
  s.filter fun price =>
    decide (q1Of s - 3 / 2 * (q3Of s - q1Of s) ≤ price) &&
    decide (price ≤ q3Of s + 3 / 2 * (q3Of s - q1Of s))

/-- `list.reduce((acc, val) => acc + val, 0) / list.length`: arithmetic mean. -/
def listMean (l : List ℚ) : ℚ :=
  l.foldl (· + ·) 0 / l.length

/-- `calculateIQRAverage` (src/App.tsx lines 39-73): filter to finite
numbers; empty gives 0; fewer than 4 gives the plain mean; otherwise trim
by the IQR fences and average the survivors, falling back to the full mean
if everything was trimmed; always round to 3 decimals. -/
def calculateIQRAverage (priceList : List JVal) : ℚ :=
  let validPrices := validOf priceList
  if validPrices.length = 0 then 0
  else if validPrices.length < 4 then
    round3 (listMean validPrices)
  else
    let sortedPrices := sortAsc validPrices
    let filteredPrices := keptOf sortedPrices
    if filteredPrices.length = 0 then
      round3 (listMean sortedPrices)
    else
      round3 (listMean filteredPrices)

/-! ## The Dense Price Ranker (`RankingDrawer.rankedPrices`, src/App.tsx 1522-1546) -/

/-- One row of the ranking output. -/
structure RankedEntry where
  distributor : String
  price : JNum
  rank : Nat
deriving DecidableEq

/-- `.filter(([, price]) => price !== null && price !== undefined &&
typeof price === 'number')`: entries whose value is a number (any number —
the ranker, unlike the averager, does not test finiteness). -/
def survivors (entries : List (String × JVal)) : List (String × JNum) :=
  entries.filterMap fun e =>
    match e.2 with
    | .num n => some (e.1, n)
    | .nonNum => none

/-- Insert an entry into a list ordered by price (helper for the ascending
sort `.sort(([, a], [, b]) => a - b)`). -/
def insertByPrice (e : String × JNum) : List (String × JNum) → List (String × JNum)
  | [] => [e]
  | f :: rest => if jle e.2 f.2 then e :: f :: rest else f :: insertByPrice e rest

/-- `.sort(([, a], [, b]) => a - b)`: sort ascending by price. (Insertion
sort; the order among entries the comparator cannot separate is immaterial
to the properties proved below.) -/
def sortByPrice : List (String × JNum) → List (String × JNum)
  | [] => []
  | e :: rest => insertByPrice e (sortByPrice rest)

/-- The `forEach` scan of the source: `rank` starts at 0, `lastPrice` at
`-Infinity`; the rank is incremented exactly when the current price is
strictly greater than the previous one. -/
def rankScan : Nat → JNum → List (String × JNum) → List RankedEntry
  | _, _, [] => []
  | rank, lastPrice, e :: rest =>
    let r := if jlt lastPrice e.2 then rank + 1 else rank
    ⟨e.1, e.2, r⟩ :: rankScan r e.2 rest

/-- `RankingDrawer.rankedPrices` (src/App.tsx lines 1522-1546): filter out
non-numbers, sort ascending by price, dense-rank by a single scan. -/
def rankedPrices (entries : List (String × JVal)) : List RankedEntry :=
  let sortedPrices := sortByPrice (survivors entries)
  if sortedPrices.length = 0 then []
  else rankScan 0 .negInf sortedPrices

/-- The (distributor, price) content of a ranked entry. -/
def toPair (e : RankedEntry) : String × JNum :=
  (e.distributor, e.price)

/-- Ascending price order between two output rows. -/
def priceLe (a b : RankedEntry) : Prop :=
  jle a.price b.price = true

/-- The dense-rank step between two consecutive output rows: a strictly
greater price increments the rank by exactly 1, any other price keeps it. -/
def rankStep (a b : RankedEntry) : Prop :=
  b.rank = if jlt a.price b.price then a.rank + 1 else a.rank

/-! ## The Minimum-Price Finder (`findMinPriceInfo`, src/App.tsx 97-107) -/

/-- The return shape of `findMinPriceInfo`. -/
structure MinPriceInfo where
  minPrice : JNum
  distributors : List String
deriving DecidableEq

/-- `findMinPriceInfo` (src/App.tsx lines 97-107): empty mapping gives the
`{Infinity, []}` sentinel; otherwise `Math.min` over the values and the
keys whose value is `===` to it. -/
def findMinPriceInfo (prices : List (String × JNum)) : MinPriceInfo :=
  if prices.length = 0 then ⟨.inf, []⟩
  else
    let minPrice := jsMin (prices.map Prod.snd)
    let distributors := (prices.filter fun e => jeq e.2 minPrice).map Prod.fst
    ⟨minPrice, distributors⟩

/-! ## Rounding lemmas -/

/-- Evaluation rule for `round3` at concrete inputs. -/
lemma round3_eval (x : ℚ) (k : ℤ) (h1 : (k : ℚ) ≤ x * 1000 + 1 / 2)
    (h2 : x * 1000 + 1 / 2 < k + 1) : round3 x = (k : ℚ) / 1000 := by
  rw [round3, Int.floor_eq_iff.mpr ⟨h1, h2⟩]

lemma round3_zero : round3 0 = 0 := by
  rw [round3_eval 0 0 (by norm_num) (by norm_num)]
  norm_num

lemma round3_round3 (x : ℚ) : round3 (round3 x) = round3 x := by
  have h : round3 x = ((⌊x * 1000 + 1 / 2⌋ : ℤ) : ℚ) / 1000 := rfl
  rw [h, round3_eval _ ⌊x * 1000 + 1 / 2⌋ ?_ ?_]
  · rw [div_mul_cancel₀]
    · linarith
    · norm_num
  · rw [div_mul_cancel₀]
    · linarith
    · norm_num

/-! ## Claim theorems: the Averager -/

/-- C7: for every input, the Averager's return value is a fixed point of
rounding to 3 decimal places — the result is always rounded to exactly
3 decimals, regardless of input precision. -/
theorem calculateIQRAverage_round3_fixed (l : List JVal) :
    round3 (calculateIQRAverage l) = calculateIQRAverage l := by
  rw [calculateIQRAverage]
  by_cases h0 : (validOf l).length = 0
  · simp [h0, round3_zero]
  · by_cases h3 : (validOf l).length < 4
    · simp [h0, h3, round3_round3]
    · by_cases hk : (keptOf (sortAsc (validOf l))).length = 0
      · simp [h0, h3, hk, round3_round3]
      · simp [h0, h3, hk, round3_round3]

/-- C4: none of the three functions can fail on degenerate input (in this
embedding all three are total functions); each degrades to its sentinel:
the Averager returns 0 whenever no value survives the finiteness filter
(in particular on the empty list), the Ranker returns the empty sequence
whenever no entry survives (in particular on the empty list), and the
Minimum-Price Finder returns the `{Infinity, []}` sentinel on the empty
mapping. -/
theorem sentinel_outputs :
    (∀ l : List JVal, validOf l = [] → calculateIQRAverage l = 0) ∧
    calculateIQRAverage [] = 0 ∧
    (∀ entries : List (String × JVal), survivors entries = [] →
      rankedPrices entries = []) ∧
    rankedPrices [] = [] ∧
    findMinPriceInfo [] = ⟨.inf, []⟩ := by
  refine ⟨fun l h => ?_, ?_, fun entries h => ?_, rfl, rfl⟩
  · rw [calculateIQRAverage]
    simp [h]
  · rfl
  · rw [rankedPrices]
    simp [h, sortByPrice]

/-- C4 witness: entirely non-numeric input to the Averager and the Ranker. -/
theorem sentinel_outputs_witness :
    calculateIQRAverage [JVal.nonNum, JVal.num .nan, JVal.num .inf] = 0 ∧
    rankedPrices [("A", JVal.nonNum)] = [] := by
  exact ⟨sentinel_outputs.1 _ rfl, sentinel_outputs.2.2.1 _ rfl⟩

/-- C3: with a non-zero number of surviving finite values below 4, the
Averager returns the plain arithmetic mean of the surviving values rounded
to 3 decimals, with no quartile-based trimming. -/
theorem calculateIQRAverage_small (l : List JVal) (h0 : validOf l ≠ [])
    (h4 : (validOf l).length < 4) :
    calculateIQRAverage l = round3 (listMean (validOf l)) := by
  rw [calculateIQRAverage]
  simp [List.length_eq_zero.not.mpr h0, h4]

/-- C3 witness: `[5.0, 5.5, 6.0]` returns `5.5`. -/
theorem calculateIQRAverage_small_witness :
    validOf [JVal.num (.fin 5), JVal.num (.fin (11/2)), JVal.num (.fin 6)] ≠ [] ∧
    (validOf [JVal.num (.fin 5), JVal.num (.fin (11/2)), JVal.num (.fin 6)]).length < 4 ∧
    calculateIQRAverage [JVal.num (.fin 5), JVal.num (.fin (11/2)), JVal.num (.fin 6)]
      = 11 / 2 := by
  refine ⟨by simp [validOf, JVal.toFin, List.filterMap], by
    simp [validOf, JVal.toFin, List.filterMap], ?_⟩
  rw [calculateIQRAverage_small _ (by simp [validOf, JVal.toFin, List.filterMap])
    (by simp [validOf, JVal.toFin, List.filterMap])]
  norm_num [validOf, JVal.toFin, List.filterMap, listMean]
  rw [round3_eval (11/2) 5500 (by norm_num) (by norm_num)]
  norm_num

/-! ## Quartile and trimming lemmas -/

lemma sorted_sortAsc (l : List ℚ) : (sortAsc l).Sorted (· ≤ ·) :=
  List.sorted_insertionSort _ l

lemma perm_sortAsc (l : List ℚ) : (sortAsc l).Perm l :=
  List.perm_insertionSort _ l

lemma length_sortAsc (l : List ℚ) : (sortAsc l).length = l.length :=
  (perm_sortAsc l).length_eq

lemma getD_mem_of_lt (l : List ℚ) (n : ℕ) (h : n < l.length) : l.getD n 0 ∈ l := by
  rw [List.getD_eq_getElem?_getD, List.getElem?_eq_getElem h]
  exact List.getElem_mem h

lemma q1Of_index_lt (s : List ℚ) (h : s ≠ []) : s.length / 4 < s.length :=
  Nat.div_lt_self (List.length_pos.mpr h) (by norm_num)

lemma q3Of_index_lt (s : List ℚ) (h : s ≠ []) : s.length * 3 / 4 < s.length := by
  rw [Nat.div_lt_iff_lt_mul (by norm_num)]
  have := List.length_pos.mpr h
  omega

lemma q1Of_mem (s : List ℚ) (h : s ≠ []) : q1Of s ∈ s :=
  getD_mem_of_lt s _ (q1Of_index_lt s h)

lemma q3Of_mem (s : List ℚ) (h : s ≠ []) : q3Of s ∈ s :=
  getD_mem_of_lt s _ (q3Of_index_lt s h)

lemma q1Of_le_q3Of (s : List ℚ) (hs : s.Sorted (· ≤ ·)) (h : s ≠ []) :
    q1Of s ≤ q3Of s := by
  have hi := q1Of_index_lt s h
  have hj := q3Of_index_lt s h
  have hij : s.length / 4 ≤ s.length * 3 / 4 :=
    Nat.div_le_div_right (by omega)
  have hrel := hs.rel_get_of_le (a := ⟨s.length / 4, hi⟩) (b := ⟨s.length * 3 / 4, hj⟩) hij
  rw [q1Of, q3Of, List.getD_eq_getElem?_getD, List.getElem?_eq_getElem hi,
    List.getD_eq_getElem?_getD, List.getElem?_eq_getElem hj]
  simpa using hrel

lemma q1Of_mem_keptOf (s : List ℚ) (hs : s.Sorted (· ≤ ·)) (h : s ≠ []) :
    q1Of s ∈ keptOf s := by
  have hle := q1Of_le_q3Of s hs h
  rw [keptOf, List.mem_filter]
  refine ⟨q1Of_mem s h, ?_⟩
  simp only [Bool.and_eq_true, decide_eq_true_eq]
  constructor <;> linarith

lemma keptOf_ne_nil (s : List ℚ) (hs : s.Sorted (· ≤ ·)) (h : s ≠ []) :
    keptOf s ≠ [] :=
  List.ne_nil_of_mem (q1Of_mem_keptOf s hs h)

lemma validOf_ne_nil_of_four (l : List JVal) (h : 4 ≤ (validOf l).length) :
    validOf l ≠ [] := by
  intro hnil
  rw [hnil] at h
  simp at h

/-- With at least 4 surviving values, `calculateIQRAverage` takes the main
branch: the rounded mean of the IQR-trimmed sorted list. -/
lemma calculateIQRAverage_main_branch (l : List JVal) (h : 4 ≤ (validOf l).length) :
    calculateIQRAverage l = round3 (listMean (keptOf (sortAsc (validOf l)))) := by
  have hne : validOf l ≠ [] := validOf_ne_nil_of_four l h
  have hsne : sortAsc (validOf l) ≠ [] := by
    intro hnil
    have := length_sortAsc (validOf l)
    rw [hnil] at this
    exact hne (List.length_eq_zero.mp this.symm)
  have hkept : keptOf (sortAsc (validOf l)) ≠ [] :=
    keptOf_ne_nil _ (sorted_sortAsc _) hsne
  rw [calculateIQRAverage]
  simp [List.length_eq_zero.not.mpr hne, Nat.not_lt.mpr h,
    List.length_eq_zero.not.mpr hkept]

lemma foldl_add_eq_sum (l : List ℚ) (a : ℚ) : l.foldl (· + ·) a = a + l.sum := by
  induction l generalizing a with
  | nil => simp
  | cons x t ih => simp [ih, add_assoc]

lemma listMean_replicate (n : ℕ) (c : ℚ) (hn : n ≠ 0) :
    listMean (List.replicate n c) = c := by
  rw [listMean, foldl_add_eq_sum]
  simp only [zero_add, List.sum_replicate, nsmul_eq_mul, List.length_replicate]
  rw [mul_comm, mul_div_assoc, div_self (by exact_mod_cast hn), mul_one]

/-- C8: with at least 4 surviving values, the defensive fallback branch is
unreachable — the IQR filter always retains the Q1 element, since the
bounds are computed from the sorted list's own quartiles, so the trimmed
list is never empty and the result is always the trimmed mean. -/
theorem fallback_unreachable (l : List JVal) (h : 4 ≤ (validOf l).length) :
    q1Of (sortAsc (validOf l)) ∈ keptOf (sortAsc (validOf l)) ∧
    keptOf (sortAsc (validOf l)) ≠ [] ∧
    calculateIQRAverage l = round3 (listMean (keptOf (sortAsc (validOf l)))) := by
  have hsne : sortAsc (validOf l) ≠ [] := by
    intro hnil
    have hlen := length_sortAsc (validOf l)
    rw [hnil] at hlen
    exact validOf_ne_nil_of_four l h (List.length_eq_zero.mp hlen.symm)
  exact ⟨q1Of_mem_keptOf _ (sorted_sortAsc _) hsne,
    keptOf_ne_nil _ (sorted_sortAsc _) hsne,
    calculateIQRAverage_main_branch l h⟩

/-- C8 witness: a concrete list of 4 surviving values. -/
theorem fallback_unreachable_witness :
    4 ≤ (validOf [JVal.num (.fin 1), JVal.num (.fin 2), JVal.num (.fin 3),
      JVal.num (.fin 4)]).length ∧
    keptOf (sortAsc (validOf [JVal.num (.fin 1), JVal.num (.fin 2),
      JVal.num (.fin 3), JVal.num (.fin 4)])) ≠ [] := by
  have h4 : 4 ≤ (validOf [JVal.num (.fin 1), JVal.num (.fin 2), JVal.num (.fin 3),
      JVal.num (.fin 4)]).length := by
    simp [validOf, JVal.toFin, List.filterMap]
  exact ⟨h4, (fallback_unreachable _ h4).2.1⟩

/-- C1: with at least 4 surviving finite values, the Averager sorts them
ascending, takes Q1 at index `⌊n/4⌋` and Q3 at index `⌊3n/4⌋`, keeps
exactly the values inside the inclusive IQR fences, and returns their
arithmetic mean rounded to 3 decimals (the trimmed list is never empty,
so the fallback is not taken). -/
theorem calculateIQRAverage_iqr_spec (l : List JVal) (h : 4 ≤ (validOf l).length) :
    (sortAsc (validOf l)).Sorted (· ≤ ·) ∧
    (sortAsc (validOf l)).Perm (validOf l) ∧
    (∀ x ∈ sortAsc (validOf l), (x ∈ keptOf (sortAsc (validOf l)) ↔
      q1Of (sortAsc (validOf l)) -
        3 / 2 * (q3Of (sortAsc (validOf l)) - q1Of (sortAsc (validOf l))) ≤ x ∧
      x ≤ q3Of (sortAsc (validOf l)) +
        3 / 2 * (q3Of (sortAsc (validOf l)) - q1Of (sortAsc (validOf l))))) ∧
    keptOf (sortAsc (validOf l)) ≠ [] ∧
    calculateIQRAverage l = round3 (listMean (keptOf (sortAsc (validOf l)))) := by
  have hsne : sortAsc (validOf l) ≠ [] := by
    intro hnil
    have hlen := length_sortAsc (validOf l)
    rw [hnil] at hlen
    exact validOf_ne_nil_of_four l h (List.length_eq_zero.mp hlen.symm)
  refine ⟨sorted_sortAsc _, perm_sortAsc _, fun x hx => ?_,
    keptOf_ne_nil _ (sorted_sortAsc _) hsne, calculateIQRAverage_main_branch l h⟩
  rw [keptOf, List.mem_filter]
  simp [hx]

/-- C1 witness: `[5.0, 5.1, 5.2, 5.3, 50.0]` trims the outlier `50.0` and
returns `5.15`. -/
theorem calculateIQRAverage_iqr_spec_witness :
    4 ≤ (validOf [JVal.num (.fin 5), JVal.num (.fin (51/10)), JVal.num (.fin (26/5)),
      JVal.num (.fin (53/10)), JVal.num (.fin 50)]).length ∧
    calculateIQRAverage [JVal.num (.fin 5), JVal.num (.fin (51/10)),
      JVal.num (.fin (26/5)), JVal.num (.fin (53/10)), JVal.num (.fin 50)]
      = 103 / 20 := by
  have h4 : 4 ≤ (validOf [JVal.num (.fin 5), JVal.num (.fin (51/10)),
      JVal.num (.fin (26/5)), JVal.num (.fin (53/10)), JVal.num (.fin 50)]).length := by
    simp [validOf, JVal.toFin, List.filterMap]
  refine ⟨h4, ((calculateIQRAverage_iqr_spec _ h4).2.2.2.2).trans ?_⟩
  norm_num [validOf, JVal.toFin, sortAsc, keptOf, q1Of, q3Of,
    listMean, List.filterMap, List.filter, List.getD]
  rw [round3_eval (103/20) 5150 (by norm_num) (by norm_num)]
  norm_num

/-- C6 counterexample: four copies of `0.0001` — every value survives the
trimming, but the result is `round3 0.0001 = 0`, not the common value
`0.0001`; the claim's final clause fails as stated because the result is
still rounded to 3 decimals. -/
theorem allEqual_counterexample :
    calculateIQRAverage (List.replicate 4 (JVal.num (JNum.fin (1/10000)))) = 0 ∧
    (0 : ℚ) ≠ 1 / 10000 := by
  constructor
  · norm_num [calculateIQRAverage, validOf, JVal.toFin, sortAsc, keptOf, q1Of, q3Of,
      listMean, List.filterMap, List.filter, List.getD, List.replicate]
    rw [round3_eval (1/10000) 0 (by norm_num) (by norm_num)]
    norm_num
  · norm_num

/-- C6 (amended): for at least 4 identical surviving values the IQR is 0,
every value survives the trimming, and the result equals the common value
rounded to 3 decimal places (hence the value itself whenever it has at
most 3 decimals). -/
theorem calculateIQRAverage_allEqual (l : List JVal) (c : ℚ)
    (hall : ∀ x ∈ validOf l, x = c) (h : 4 ≤ (validOf l).length) :
    q3Of (sortAsc (validOf l)) - q1Of (sortAsc (validOf l)) = 0 ∧
    keptOf (sortAsc (validOf l)) = sortAsc (validOf l) ∧
    calculateIQRAverage l = round3 c := by
  have hsne : sortAsc (validOf l) ≠ [] := by
    intro hnil
    have hlen := length_sortAsc (validOf l)
    rw [hnil] at hlen
    exact validOf_ne_nil_of_four l h (List.length_eq_zero.mp hlen.symm)
  have hmem : ∀ x ∈ sortAsc (validOf l), x = c := fun x hx =>
    hall x ((perm_sortAsc (validOf l)).subset hx)
  have hq1 : q1Of (sortAsc (validOf l)) = c := hmem _ (q1Of_mem _ hsne)
  have hq3 : q3Of (sortAsc (validOf l)) = c := hmem _ (q3Of_mem _ hsne)
  have hkept : keptOf (sortAsc (validOf l)) = sortAsc (validOf l) := by
    rw [keptOf, List.filter_eq_self]
    intro x hx
    rw [hmem x hx, hq1, hq3]
    simp
  refine ⟨by rw [hq1, hq3, sub_self], hkept, ?_⟩
  rw [calculateIQRAverage_main_branch l h, hkept]
  have hrep : sortAsc (validOf l) = List.replicate (sortAsc (validOf l)).length c :=
    List.eq_replicate_iff.mpr ⟨rfl, hmem⟩
  rw [hrep, listMean_replicate]
  intro hzero
  rw [length_sortAsc] at hzero
  exact validOf_ne_nil_of_four l h (List.length_eq_zero.mp hzero)

/-- C6 witness for the amended claim: four copies of `5.1` give `5.1`. -/
theorem calculateIQRAverage_allEqual_witness :
    (∀ x ∈ validOf (List.replicate 4 (JVal.num (.fin (51/10)))), x = 51/10) ∧
    4 ≤ (validOf (List.replicate 4 (JVal.num (.fin (51/10))))).length ∧
    calculateIQRAverage (List.replicate 4 (JVal.num (.fin (51/10)))) = 51 / 10 := by
  have hall : ∀ x ∈ validOf (List.replicate 4 (JVal.num (.fin (51/10)))), x = 51/10 := by
    simp [validOf, JVal.toFin, List.filterMap, List.replicate]
  have h4 : 4 ≤ (validOf (List.replicate 4 (JVal.num (.fin (51/10))))).length := by
    simp [validOf, JVal.toFin, List.filterMap, List.replicate]
  refine ⟨hall, h4, ((calculateIQRAverage_allEqual _ _ hall h4).2.2).trans ?_⟩
  rw [round3_eval (51/10) 5100 (by norm_num) (by norm_num)]
  norm_num

/-! ## Order lemmas for JavaScript numbers (no `NaN` involved) -/

lemma jeq_eq_of_true {a b : JNum} (h : jeq a b = true) : a = b := by
  cases a <;> cases b <;> simp_all [jeq]

lemma jeq_self {a : JNum} (h : a ≠ .nan) : jeq a a = true := by
  cases a <;> simp_all [jeq]

lemma jle_refl {a : JNum} (h : a ≠ .nan) : jle a a = true := by
  cases a <;> simp_all [jle]

lemma jle_trans {a b c : JNum} (hab : jle a b = true) (hbc : jle b c = true) :
    jle a c = true := by
  cases a <;> cases b <;> cases c <;> simp_all [jle] <;> linarith

lemma jle_inf_elim {a : JNum} (h : jle .inf a = true) : a = .inf := by
  cases a <;> simp_all [jle]

lemma jmin_ne_nan {a b : JNum} (ha : a ≠ .nan) (hb : b ≠ .nan) :
    jmin a b ≠ .nan := by
  cases a <;> cases b <;> simp_all [jmin] <;> split_ifs <;> simp_all

lemma jmin_eq_or (a b : JNum) : jmin a b = a ∨ jmin a b = b := by
  cases a <;> cases b <;> simp only [jmin] <;>
    first
      | exact Or.inl rfl
      | exact Or.inr rfl
      | (split_ifs <;> simp)
      | simp

lemma jle_jmin_left {a b : JNum} (ha : a ≠ .nan) (hb : b ≠ .nan) :
    jle (jmin a b) a = true := by
  cases a <;> cases b <;> simp_all [jmin, jle, jlt] <;> split_ifs <;>
    simp_all [jle] <;> linarith

lemma jle_jmin_right {a b : JNum} (ha : a ≠ .nan) (hb : b ≠ .nan) :
    jle (jmin a b) b = true := by
  cases a <;> cases b <;> simp_all [jmin, jle, jlt] <;> split_ifs <;>
    simp_all [jle] <;> linarith

/-- The `Math.min` fold computes a lower bound of the scanned values that is
either the initial accumulator or one of the values, provided no `NaN` is
involved. -/
lemma foldl_jmin_spec (vals : List JNum) : ∀ acc : JNum, acc ≠ .nan →
    (∀ v ∈ vals, v ≠ .nan) →
    (vals.foldl jmin acc = acc ∨ vals.foldl jmin acc ∈ vals) ∧
    jle (vals.foldl jmin acc) acc = true ∧
    (∀ v ∈ vals, jle (vals.foldl jmin acc) v = true) ∧
    vals.foldl jmin acc ≠ .nan := by
  induction vals with
  | nil =>
    intro acc hacc _
    exact ⟨Or.inl rfl, jle_refl hacc, by simp, hacc⟩
  | cons x t ih =>
    intro acc hacc hv
    have hx : x ≠ .nan := hv x (List.mem_cons_self x t)
    have ht : ∀ v ∈ t, v ≠ .nan := fun v hvt => hv v (List.mem_cons_of_mem x hvt)
    obtain ⟨hor, hle, hall, hnn⟩ := ih (jmin acc x) (jmin_ne_nan hacc hx) ht
    rw [List.foldl_cons]
    refine ⟨?_, jle_trans hle (jle_jmin_left hacc hx), ?_, hnn⟩
    · rcases hor with h1 | h1
      · rcases jmin_eq_or acc x with h2 | h2
        · exact Or.inl (h1.trans h2)
        · exact Or.inr (by rw [h1, h2]; exact List.mem_cons_self x t)
      · exact Or.inr (List.mem_cons_of_mem x h1)
    · intro v hvm
      rcases List.mem_cons.mp hvm with rfl | h1
      · exact jle_trans hle (jle_jmin_right hacc hx)
      · exact hall v h1

/-! ## Minimum-Price Finder lemmas -/

lemma findMinPriceInfo_minPrice (ps : List (String × JNum)) (hne : ps ≠ []) :
    (findMinPriceInfo ps).minPrice = jsMin (ps.map Prod.snd) := by
  rw [findMinPriceInfo]
  simp [List.length_eq_zero.not.mpr hne]

lemma findMinPriceInfo_distributors (ps : List (String × JNum)) (hne : ps ≠ []) :
    (findMinPriceInfo ps).distributors =
      (ps.filter fun e => jeq e.2 (jsMin (ps.map Prod.snd))).map Prod.fst := by
  rw [findMinPriceInfo]
  simp [List.length_eq_zero.not.mpr hne]

lemma map_snd_no_nan {ps : List (String × JNum)} (h : ∀ e ∈ ps, e.2 ≠ JNum.nan) :
    ∀ v ∈ ps.map Prod.snd, v ≠ JNum.nan := by
  intro v hv
  obtain ⟨e, he, rfl⟩ := List.mem_map.mp hv
  exact h e he

lemma minPrice_mem_values (ps : List (String × JNum)) (hne : ps ≠ [])
    (h : ∀ e ∈ ps, e.2 ≠ JNum.nan) :
    (findMinPriceInfo ps).minPrice ∈ ps.map Prod.snd := by
  rw [findMinPriceInfo_minPrice ps hne]
  obtain ⟨hor, _, hall, _⟩ :=
    foldl_jmin_spec (ps.map Prod.snd) .inf (by simp) (map_snd_no_nan h)
  rw [jsMin]
  rcases hor with h1 | h1
  · obtain ⟨p, t, rfl⟩ := List.exists_cons_of_ne_nil hne
    have hv0 : p.2 ∈ ((p :: t).map Prod.snd) := by simp
    have hle0 := hall p.2 hv0
    rw [h1] at hle0
    rw [h1, ← jle_inf_elim hle0]
    exact hv0
  · exact h1

lemma minPrice_le_values (ps : List (String × JNum))
    (h : ∀ e ∈ ps, e.2 ≠ JNum.nan) :
    ∀ e ∈ ps, jle (findMinPriceInfo ps).minPrice e.2 = true := by
  intro e he
  have hne : ps ≠ [] := List.ne_nil_of_mem he
  rw [findMinPriceInfo_minPrice ps hne]
  obtain ⟨_, _, hall, _⟩ :=
    foldl_jmin_spec (ps.map Prod.snd) .inf (by simp) (map_snd_no_nan h)
  exact hall e.2 (List.mem_map.mpr ⟨e, he, rfl⟩)

lemma minPrice_ne_nan (ps : List (String × JNum)) (hne : ps ≠ [])
    (h : ∀ e ∈ ps, e.2 ≠ JNum.nan) :
    (findMinPriceInfo ps).minPrice ≠ JNum.nan := by
  have := minPrice_mem_values ps hne h
  exact map_snd_no_nan h _ this

/-! ## Claim theorems: the Minimum-Price Finder -/

/-- C5: for every `NaN`-free mapping, `findMinPriceInfo` returns the
minimum of the mapping's values (a lower bound that is attained when the
mapping is non-empty), together with exactly the keys whose price compares
`===`-equal to that minimum; when all distributors share one price, all of
them are returned. -/
theorem findMinPriceInfo_min_spec (ps : List (String × JNum))
    (h : ∀ e ∈ ps, e.2 ≠ JNum.nan) :
    (∀ e ∈ ps, jle (findMinPriceInfo ps).minPrice e.2 = true) ∧
    (ps ≠ [] → (findMinPriceInfo ps).minPrice ∈ ps.map Prod.snd) ∧
    (∀ d : String, d ∈ (findMinPriceInfo ps).distributors ↔
      ∃ v, (d, v) ∈ ps ∧ jeq v (findMinPriceInfo ps).minPrice = true) ∧
    (∀ c : JNum, (∀ e ∈ ps, e.2 = c) →
      (findMinPriceInfo ps).distributors = ps.map Prod.fst) := by
  rcases eq_or_ne ps [] with rfl | hne
  · refine ⟨by simp, by simp, ?_, by simp [findMinPriceInfo]⟩
    intro d
    simp [findMinPriceInfo]
  · refine ⟨minPrice_le_values ps h, fun _ => minPrice_mem_values ps hne h, ?_, ?_⟩
    · intro d
      rw [findMinPriceInfo_distributors ps hne, ← findMinPriceInfo_minPrice ps hne]
      constructor
      · intro hd
        obtain ⟨e, hef, rfl⟩ := List.mem_map.mp hd
        obtain ⟨hep, heq⟩ := List.mem_filter.mp hef
        exact ⟨e.2, hep, heq⟩
      · rintro ⟨v, hv, hveq⟩
        exact List.mem_map.mpr ⟨(d, v), List.mem_filter.mpr ⟨hv, hveq⟩, rfl⟩
    · intro c hc
      rw [findMinPriceInfo_distributors ps hne]
      have hm : jsMin (ps.map Prod.snd) = c := by
        have := minPrice_mem_values ps hne h
        rw [findMinPriceInfo_minPrice ps hne] at this
        obtain ⟨e, he, hev⟩ := List.mem_map.mp this
        rw [← hev, hc e he]
      obtain ⟨p, t, rfl⟩ := List.exists_cons_of_ne_nil hne
      have hcn : c ≠ JNum.nan := by
        rw [← hc p (List.mem_cons_self p t)]
        exact h p (List.mem_cons_self p t)
      rw [List.filter_eq_self.mpr]
      intro e he
      rw [hc e he, hm]
      exact jeq_self hcn

/-- C5 witness: a two-way tie `{A: 5, B: 5}` returns both distributors. -/
theorem findMinPriceInfo_min_spec_witness :
    (∀ e ∈ [("A", JNum.fin 5), ("B", JNum.fin 5)], e.2 ≠ JNum.nan) ∧
    (findMinPriceInfo [("A", JNum.fin 5), ("B", JNum.fin 5)]).distributors
      = ["A", "B"] := by
  have h : ∀ e ∈ [("A", JNum.fin 5), ("B", JNum.fin 5)], e.2 ≠ JNum.nan := by
    simp
  refine ⟨h, ?_⟩
  have := (findMinPriceInfo_min_spec _ h).2.2.2 (JNum.fin 5) (by simp)
  rw [this]
  rfl

/-- C10: on a non-empty `NaN`-free mapping, the distributor list is
non-empty, every listed distributor maps to exactly the returned minimum,
and the minimum is one of the mapping's values — never a sentinel. -/
theorem findMinPriceInfo_attained (ps : List (String × JNum)) (hne : ps ≠ [])
    (h : ∀ e ∈ ps, e.2 ≠ JNum.nan) :
    (findMinPriceInfo ps).distributors ≠ [] ∧
    (∀ d ∈ (findMinPriceInfo ps).distributors,
      (d, (findMinPriceInfo ps).minPrice) ∈ ps) ∧
    (findMinPriceInfo ps).minPrice ∈ ps.map Prod.snd := by
  have hmem := minPrice_mem_values ps hne h
  have hnn := minPrice_ne_nan ps hne h
  refine ⟨?_, ?_, hmem⟩
  · obtain ⟨e, he, hev⟩ := List.mem_map.mp hmem
    rw [findMinPriceInfo_distributors ps hne]
    apply List.ne_nil_of_mem
    refine List.mem_map.mpr ⟨e, List.mem_filter.mpr ⟨he, ?_⟩, rfl⟩
    rw [hev, ← findMinPriceInfo_minPrice ps hne]
    exact jeq_self hnn
  · intro d hd
    rw [findMinPriceInfo_distributors ps hne] at hd
    obtain ⟨e, hef, rfl⟩ := List.mem_map.mp hd
    obtain ⟨hep, heq⟩ := List.mem_filter.mp hef
    have : e.2 = (findMinPriceInfo ps).minPrice := by
      rw [jeq_eq_of_true heq, findMinPriceInfo_minPrice ps hne]
    rw [← this]
    exact hep

/-- C10 witness: the singleton mapping `{A: 5}`. -/
theorem findMinPriceInfo_attained_witness :
    ([("A", JNum.fin 5)] : List (String × JNum)) ≠ [] ∧
    (∀ e ∈ [("A", JNum.fin 5)], e.2 ≠ JNum.nan) ∧
    (findMinPriceInfo [("A", JNum.fin 5)]).distributors ≠ [] := by
  have hne : ([("A", JNum.fin 5)] : List (String × JNum)) ≠ [] := by simp
  have h : ∀ e ∈ [("A", JNum.fin 5)], e.2 ≠ JNum.nan := by simp
  exact ⟨hne, h, (findMinPriceInfo_attained _ hne h).1⟩

/-! ## Ranker lemmas -/

lemma jle_total {a b : JNum} (ha : a ≠ .nan) (hb : b ≠ .nan) :
    jle a b = true ∨ jle b a = true := by
  cases a <;> cases b <;> simp_all [jle] <;> exact le_total _ _

lemma jle_antisymm {a b : JNum} (hab : jle a b = true) (hba : jle b a = true) :
    a = b := by
  cases a <;> cases b <;> simp_all [jle] <;> exact le_antisymm hab hba

lemma jlt_self (a : JNum) : jlt a a = false := by
  cases a <;> simp [jlt]

lemma jlt_negInf {a : JNum} (ha : a ≠ .nan) (hn : a ≠ .negInf) :
    jlt .negInf a = true := by
  cases a <;> simp_all [jlt]

lemma perm_insertByPrice (e : String × JNum) (l : List (String × JNum)) :
    (insertByPrice e l).Perm (e :: l) := by
  induction l with
  | nil => rfl
  | cons f rest ih =>
    rw [insertByPrice]
    split_ifs
    · rfl
    · exact (ih.cons f).trans (List.Perm.swap e f rest)

lemma perm_sortByPrice (l : List (String × JNum)) : (sortByPrice l).Perm l := by
  induction l with
  | nil => rfl
  | cons e rest ih =>
    rw [sortByPrice]
    exact (perm_insertByPrice e (sortByPrice rest)).trans (ih.cons e)

lemma mem_insertByPrice {x e : String × JNum} {l : List (String × JNum)} :
    x ∈ insertByPrice e l ↔ x = e ∨ x ∈ l := by
  rw [(perm_insertByPrice e l).mem_iff, List.mem_cons]

lemma insertByPrice_sorted {e : String × JNum} {l : List (String × JNum)}
    (he : e.2 ≠ JNum.nan) (hl : ∀ x ∈ l, x.2 ≠ JNum.nan)
    (hs : l.Pairwise fun a b => jle a.2 b.2 = true) :
    (insertByPrice e l).Pairwise fun a b => jle a.2 b.2 = true := by
  induction l with
  | nil => simp [insertByPrice]
  | cons f rest ih =>
    rw [insertByPrice]
    obtain ⟨hfr, hrs⟩ := List.pairwise_cons.mp hs
    have hf : f.2 ≠ JNum.nan := hl f (List.mem_cons_self f rest)
    have hr : ∀ x ∈ rest, x.2 ≠ JNum.nan :=
      fun x hx => hl x (List.mem_cons_of_mem f hx)
    split_ifs with hef
    · refine List.pairwise_cons.mpr ⟨?_, hs⟩
      intro x hx
      rcases List.mem_cons.mp hx with rfl | hx
      · exact hef
      · exact jle_trans hef (hfr x hx)
    · refine List.pairwise_cons.mpr ⟨?_, ih hr hrs⟩
      intro x hx
      rcases mem_insertByPrice.mp hx with rfl | hx
      · rcases jle_total he hf with h1 | h1
        · exact absurd h1 hef
        · exact h1
      · exact hfr x hx

lemma sortByPrice_sorted {l : List (String × JNum)}
    (hl : ∀ x ∈ l, x.2 ≠ JNum.nan) :
    (sortByPrice l).Pairwise fun a b => jle a.2 b.2 = true := by
  induction l with
  | nil => simp [sortByPrice]
  | cons e rest ih =>
    rw [sortByPrice]
    have hr : ∀ x ∈ rest, x.2 ≠ JNum.nan :=
      fun x hx => hl x (List.mem_cons_of_mem e hx)
    refine insertByPrice_sorted (hl e (List.mem_cons_self e rest)) ?_ (ih hr)
    intro x hx
    exact hr x ((perm_sortByPrice rest).subset hx)

lemma rankScan_map : ∀ (l : List (String × JNum)) (r : ℕ) (lp : JNum),
    (rankScan r lp l).map toPair = l := by
  intro l
  induction l with
  | nil => intro r lp; rfl
  | cons e t ih =>
    intro r lp
    rw [rankScan, List.map_cons, ih]
    rfl

lemma rankScan_chain : ∀ (l : List (String × JNum)) (r : ℕ) (lp : JNum),
    (rankScan r lp l).Chain' rankStep := by
  intro l
  induction l with
  | nil => intro r lp; simp [rankScan]
  | cons e t ih =>
    intro r lp
    rw [rankScan]
    refine List.chain'_cons'.mpr ⟨?_, ih _ _⟩
    intro b hb
    cases t with
    | nil => simp [rankScan] at hb
    | cons f t2 =>
      rw [rankScan, List.head?_cons, Option.mem_def, Option.some_inj] at hb
      rw [← hb, rankStep]

lemma rankedPrices_eq (entries : List (String × JVal)) :
    rankedPrices entries = rankScan 0 .negInf (sortByPrice (survivors entries)) := by
  rw [rankedPrices]
  by_cases h : (sortByPrice (survivors entries)).length = 0
  · rw [List.length_eq_zero.mp h]
    simp [rankScan]
  · simp [h]

/-- Equal prices receive equal ranks along a chain of dense-rank steps on a
price-sorted output. -/
lemma rank_eq_of_price_eq_head : ∀ (l : List RankedEntry) (a : RankedEntry),
    (a :: l).Chain' rankStep → (a :: l).Pairwise priceLe →
    ∀ b ∈ l, b.price = a.price → b.rank = a.rank := by
  intro l
  induction l with
  | nil => intro a _ _ b hb; simp at hb
  | cons c t ih =>
    intro a hchain hpair b hb hprice
    obtain ⟨hac, hchain2⟩ := List.chain'_cons.mp hchain
    obtain ⟨hale, hpair2⟩ := List.pairwise_cons.mp hpair
    rcases List.mem_cons.mp hb with rfl | hbt
    · rw [rankStep, hprice, jlt_self, if_neg (by simp)] at hac
      exact hac
    · have hca : c.price = a.price := by
        have h1 : jle a.price c.price = true := hale c (List.mem_cons_self c t)
        have h2 : jle c.price b.price = true :=
          (List.pairwise_cons.mp hpair2).1 b hbt
        rw [hprice] at h2
        exact jle_antisymm h2 h1
      have hcr : c.rank = a.rank := by
        rw [rankStep, hca, jlt_self, if_neg (by simp)] at hac
        exact hac
      rw [← hca] at hprice
      rw [← hcr]
      exact ih c hchain2 hpair2 b hbt hprice

lemma pairwise_rank_eq_of_price_eq : ∀ (l : List RankedEntry),
    l.Chain' rankStep → l.Pairwise priceLe →
    l.Pairwise fun a b => a.price = b.price → a.rank = b.rank := by
  intro l
  induction l with
  | nil => intro _ _; simp
  | cons a t ih =>
    intro hchain hpair
    refine List.pairwise_cons.mpr ⟨?_, ?_⟩
    · intro b hb hprice
      exact (rank_eq_of_price_eq_head t a hchain hpair b hb hprice.symm).symm
    · cases t with
      | nil => simp
      | cons c t2 =>
        exact ih (List.chain'_cons.mp hchain).2 (List.pairwise_cons.mp hpair).2

/-! ## Claim theorems: the Dense Price Ranker -/

/-- C9: the Ranker's output is a permutation of the surviving input: every
surviving (distributor, price) pair appears exactly once with its original
distributor and price, nothing is fabricated or dropped, and the output
length equals the number of survivors. -/
theorem rankedPrices_permutation (entries : List (String × JVal)) :
    ((rankedPrices entries).map toPair).Perm (survivors entries) ∧
    (rankedPrices entries).length = (survivors entries).length := by
  have hmap : (rankedPrices entries).map toPair = sortByPrice (survivors entries) := by
    rw [rankedPrices_eq, rankScan_map]
  have hperm : ((rankedPrices entries).map toPair).Perm (survivors entries) := by
    rw [hmap]
    exact perm_sortByPrice _
  refine ⟨hperm, ?_⟩
  have := hperm.length_eq
  rw [List.length_map] at this
  exact this

/-- C2 counterexample: a single surviving entry whose price is `-Infinity`
(a number for `typeof`, hence not excluded by the filter) receives rank 0,
not rank 1, because the scan's `lastPrice` starts at `-Infinity` and
`-Infinity > -Infinity` is false. -/
theorem rankedPrices_rank_zero_counterexample :
    rankedPrices [("A", JVal.num .negInf)] =
      [⟨"A", .negInf, 0⟩] ∧ (0 : ℕ) ≠ 1 := by
  constructor
  · rw [rankedPrices_eq]
    rfl
  · norm_num

/-- C2 (amended): provided the surviving prices contain neither `NaN` nor
`-Infinity`, the Ranker's output is sorted ascending by price, the first
rank is 1, consecutive rows keep the rank on equal price and increment it
by exactly 1 on a strictly greater price (so ranks are contiguous with no
gaps), equal prices always share a rank, and a single surviving entry
gets rank 1. -/
theorem rankedPrices_dense_rank (entries : List (String × JVal))
    (h : ∀ e ∈ survivors entries, e.2 ≠ JNum.nan ∧ e.2 ≠ JNum.negInf) :
    (rankedPrices entries).Pairwise priceLe ∧
    (∀ a, (rankedPrices entries).head? = some a → a.rank = 1) ∧
    (rankedPrices entries).Chain' rankStep ∧
    ((rankedPrices entries).Pairwise fun a b => a.price = b.price → a.rank = b.rank) ∧
    ((survivors entries).length = 1 → ∃ a, rankedPrices entries = [a] ∧ a.rank = 1) := by
  have hnn : ∀ x ∈ survivors entries, x.2 ≠ JNum.nan := fun x hx => (h x hx).1
  have hsorted := sortByPrice_sorted hnn
  have hmap : (rankedPrices entries).map toPair = sortByPrice (survivors entries) := by
    rw [rankedPrices_eq, rankScan_map]
  have hpairwise : (rankedPrices entries).Pairwise priceLe := by
    rw [← hmap] at hsorted
    exact (List.pairwise_map.mp hsorted).imp fun hab => hab
  have hchain : (rankedPrices entries).Chain' rankStep := by
    rw [rankedPrices_eq]
    exact rankScan_chain _ _ _
  have hhead : ∀ a, (rankedPrices entries).head? = some a → a.rank = 1 := by
    intro a ha
    rw [rankedPrices_eq] at ha
    rcases hs : sortByPrice (survivors entries) with _ | ⟨e, t⟩
    · rw [hs] at ha
      simp [rankScan] at ha
    · rw [hs, rankScan] at ha
      have he : e ∈ sortByPrice (survivors entries) := by
        rw [hs]
        exact List.mem_cons_self e t
      have hsur := (perm_sortByPrice _).subset he
      rw [List.head?_cons, Option.some_inj] at ha
      rw [← ha]
      simp only [jlt_negInf (h e hsur).1 (h e hsur).2, if_true]
  refine ⟨hpairwise, hhead, hchain, ?_, ?_⟩
  · exact pairwise_rank_eq_of_price_eq _ hchain hpairwise
  · intro hlen
    have hslen : (sortByPrice (survivors entries)).length = 1 := by
      rw [(perm_sortByPrice (survivors entries)).length_eq, hlen]
    obtain ⟨e, hs⟩ := List.length_eq_one.mp hslen
    refine ⟨⟨e.1, e.2, 1⟩, ?_, rfl⟩
    have hsur := (perm_sortByPrice (survivors entries)).subset
      (hs ▸ List.mem_cons_self e [])
    rw [rankedPrices_eq, hs, rankScan]
    simp only [jlt_negInf (h e hsur).1 (h e hsur).2, if_true]
    rfl

/-- C2 witness: prices `{A: 5.0, B: 5.0, C: 5.2}` satisfy the amended
hypothesis, and the output carries dense-rank steps. -/
theorem rankedPrices_dense_rank_witness :
    (∀ e ∈ survivors [("A", JVal.num (.fin 5)), ("B", JVal.num (.fin 5)),
      ("C", JVal.num (.fin (26/5)))], e.2 ≠ JNum.nan ∧ e.2 ≠ JNum.negInf) ∧
    (rankedPrices [("A", JVal.num (.fin 5)), ("B", JVal.num (.fin 5)),
      ("C", JVal.num (.fin (26/5)))]).Chain' rankStep := by
  have h : ∀ e ∈ survivors [("A", JVal.num (.fin 5)), ("B", JVal.num (.fin 5)),
      ("C", JVal.num (.fin (26/5)))], e.2 ≠ JNum.nan ∧ e.2 ≠ JNum.negInf := by
    simp [survivors, List.filterMap]
  exact ⟨h, (rankedPrices_dense_rank _ h).2.2.1⟩

end PrecinPlus
